import Mathlib

/-
  A shallow embedding of the structural document differ in `src/main.py`
  (legislative amendment analysis tool): the line differ front end
  `compare_texts`, and the `AmendmentAnalyzer` class — `extract_sections`,
  `extract_subsections`, `analyze_changes`, `analyze_section_changes` —
  together with theorems about the parser and change classifier.

  Strings are Lean `String`s; line splitting, stripping and the two regular
  expressions (`(?:SEC\.|SECTION)\s+\d+\.` and `\([a-z0-9]\)`, both
  IGNORECASE) are embedded as executable functions over `List Char`.
  Python's `\s`, `\d` and IGNORECASE additionally cover rare non-ASCII
  whitespace/digit/cased characters; the embedding uses the ASCII classes,
  which none of the properties below distinguish.
-/

/-- Python `\s` on the ASCII range: space, tab, newline, carriage return,
vertical tab, form feed. -/
def isPySpace (c : Char) : Bool :=
  c = ' ' || c = '\t' || c = '\n' || c = '\r' || c = '\x0b' || c = '\x0c'

/-- Strip leading and trailing whitespace from a list of characters
(Python `str.strip()`). -/
def stripL (l : List Char) : List Char :=
  ((l.dropWhile isPySpace).reverse.dropWhile isPySpace).reverse

/-- Python `str.strip()`. -/
def pyStrip (s : String) : String := ⟨stripL s.data⟩

/-- Split a character list at every newline (Python `str.split('\n')`):
the empty input yields one empty piece, and every separator contributes
a boundary, so the result is always nonempty. -/
def splitNl : List Char → List (List Char)
  | [] => [[]]
  | c :: rest =>
    if c = '\n' then [] :: splitNl rest
    else
      match splitNl rest with
      | piece :: more => (c :: piece) :: more
      | [] => [[c]]

/-- Python `text.split('\n')`. -/
def pySplitNl (s : String) : List String := (splitNl s.data).map (fun l => ⟨l⟩)

/-- Join character lists with a newline between consecutive pieces
(Python `'\n'.join(...)`). -/
def joinNlL : List (List Char) → List Char
  | [] => []
  | [x] => x
  | x :: y :: xs => x ++ '\n' :: joinNlL (y :: xs)

/-- Python `'\n'.join(strings)`. -/
def joinNl (ls : List String) : String := ⟨joinNlL (ls.map String.data)⟩

/-- Case-insensitive literal match: `matchCI pat l` strips a prefix of `l`
whose lowercasing is `pat`, returning the remainder (the pattern is given
in lowercase). -/
def matchCI : List Char → List Char → Option (List Char)
  | [], rest => some rest
  | _ :: _, [] => none
  | p :: ps, c :: cs => if c.toLower = p then matchCI ps cs else none

/-- The `\s+\d+\.` tail of the section-heading regex, matched greedily.
No backtracking is needed: whitespace, digits and `'.'` are pairwise
disjoint character classes, so the greedy match succeeds exactly when
some match exists. -/
def skipTail : List Char → Bool
  | [] => false
  | c :: cs =>
    isPySpace c &&
      (match cs.dropWhile isPySpace with
       | [] => false
       | d :: ds =>
         d.isDigit &&
           (match ds.dropWhile Char.isDigit with
            | [] => false
            | e :: _ => e = '.'))

/-- `(?:SEC\.|SECTION)\s+\d+\.` (IGNORECASE) anchored at the head of the
character list. -/
def secFrom (l : List Char) : Bool :=
  (match matchCI ['s', 'e', 'c', '.'] l with
   | some rest => skipTail rest
   | none => false) ||
  (match matchCI ['s', 'e', 'c', 't', 'i', 'o', 'n'] l with
   | some rest => skipTail rest
   | none => false)

/-- `re.search` semantics: try the anchored matcher at every start
position (every suffix). -/
def searchAny (f : List Char → Bool) : List Char → Bool
  | [] => f []
  | c :: cs => f (c :: cs) || searchAny f cs

/-- `self.section_pattern.search(line)` from `AmendmentAnalyzer.__init__`:
the line contains, case-insensitively, `SEC.` or `SECTION` followed by
whitespace, one or more digits and a period. -/
def sectionMatch (line : String) : Bool := searchAny secFrom line.data

/-- `\([a-z0-9]\)` (IGNORECASE) anchored at the head of the character
list: a parenthesized single letter or digit. -/
def subFrom : List Char → Bool
  | '(' :: c :: ')' :: _ => c.toLower.isLower || c.isDigit
  | _ => false

/-- `self.subsection_pattern.search(line)`. -/
def subsectionMatch (line : String) : Bool := searchAny subFrom line.data

/-- A subsection: `{'title': ..., 'content': ...}` in the source. -/
structure Subsection where
  title : String
  content : String
  deriving DecidableEq

/-- A section: `{'title': ..., 'content': ..., 'subsections': ...}` in the
source. -/
structure Section where
  title : String
  content : String
  subsections : List Subsection
  deriving DecidableEq

/-- The loop of `AmendmentAnalyzer.extract_subsections`: state is the
currently open subsection title (if any) and the accumulated content
lines, newest first. -/
def extract_subsections_aux : List String → Option String → List String → List Subsection
  | [], none, _ => []
  | [], some t, content => [⟨t, joinNl content.reverse⟩]
  | line :: rest, cur, content =>
    if subsectionMatch line then
      match cur with
      | none => extract_subsections_aux rest (some (pyStrip line)) []
      | some t =>
        ⟨t, joinNl content.reverse⟩ :: extract_subsections_aux rest (some (pyStrip line)) []
    else
      extract_subsections_aux rest cur (line :: content)

/-- `AmendmentAnalyzer.extract_subsections`. -/
def extract_subsections (text : String) : List Subsection :=
  extract_subsections_aux (pySplitNl text) none []

/-- Close the currently open section: content is the newline-join of the
accumulated lines, and the subsection sub-pass runs over that content. -/
def closeSection (t : String) (content : List String) : Section :=
  let c := joinNl content.reverse
  ⟨t, c, extract_subsections c⟩

/-- The loop of `AmendmentAnalyzer.extract_sections`. -/
def extract_sections_aux : List String → Option String → List String → List Section
  | [], none, _ => []
  | [], some t, content => [closeSection t content]
  | line :: rest, cur, content =>
    if sectionMatch line then
      match cur with
      | none => extract_sections_aux rest (some (pyStrip line)) []
      | some t =>
        closeSection t content :: extract_sections_aux rest (some (pyStrip line)) []
    else
      extract_sections_aux rest cur (line :: content)

/-- `AmendmentAnalyzer.extract_sections`. -/
def extract_sections (text : String) : List Section :=
  extract_sections_aux (pySplitNl text) none []

/-- `title in {s['title']: s for s in sections}`: membership in the
title-keyed dict is membership among the titles. -/
def titleMem (t : String) (ss : List Section) : Bool :=
  ss.any (fun s => s.title == t)

/-- Indexing the title-keyed dict: on duplicate titles the later section
overwrites the earlier one, so lookup returns the last section with the
title. -/
def lookupTitle (ss : List Section) (t : String) : Option Section :=
  ss.foldl (fun acc s => if s.title = t then some s else acc) none

/-- Dict membership for subsections. -/
def subTitleMem (t : String) (ss : List Subsection) : Bool :=
  ss.any (fun s => s.title == t)

/-- Dict lookup for subsections (last write wins). -/
def lookupSubTitle (ss : List Subsection) (t : String) : Option Subsection :=
  ss.foldl (fun acc s => if s.title = t then some s else acc) none

/-- One entry of `modified_subsections`:
`{'title': ..., 'original': ..., 'amendment': ...}`. -/
structure ModifiedSubsection where
  title : String
  original : String
  amendment : String
  deriving DecidableEq

/-- The dict returned by `AmendmentAnalyzer.analyze_section_changes`. -/
structure SectionChange where
  title : String
  added_subsections : List Subsection
  removed_subsections : List Subsection
  modified_subsections : List ModifiedSubsection
  deriving DecidableEq

/-- The dict returned by `AmendmentAnalyzer.analyze_changes`. -/
structure ChangeReport where
  added_sections : List Section
  removed_sections : List Section
  modified_sections : List SectionChange
  deriving DecidableEq

/-- `AmendmentAnalyzer.analyze_section_changes`. -/
def analyze_section_changes (original amendment : Section) : SectionChange :=
  { title := original.title
    added_subsections :=
      amendment.subsections.filter (fun s => !(subTitleMem s.title original.subsections))
    removed_subsections :=
      original.subsections.filter (fun s => !(subTitleMem s.title amendment.subsections))
    modified_subsections :=
      original.subsections.filterMap (fun s =>
        match lookupSubTitle amendment.subsections s.title with
        | none => none
        | some a => if s.content ≠ a.content then some ⟨s.title, s.content, a.content⟩ else none) }

/-- `AmendmentAnalyzer.analyze_changes`.  Note on the modified-sections
loop: the Python source guards the append with `if section_changes:`, but
`analyze_section_changes` returns a dict that always contains at least the
`'title'` key, so the dict is always truthy and every section present in
both documents is appended, changed or not. -/
def analyze_changes (original_text amendment_text : String) : ChangeReport :=
  let original_sections := extract_sections original_text
  let amendment_sections := extract_sections amendment_text
  { added_sections :=
      amendment_sections.filter (fun s => !(titleMem s.title original_sections))
    removed_sections :=
      original_sections.filter (fun s => !(titleMem s.title amendment_sections))
    modified_sections :=
      original_sections.filterMap (fun s =>
        match lookupTitle amendment_sections s.title with
        | none => none
        | some a => some (analyze_section_changes s a)) }

/-- Tag of one line of diff output. -/
inductive DiffTag
  | context
  | added
  | removed
  deriving DecidableEq

/-- One tagged line of diff output. -/
structure DiffLine where
  tag : DiffTag
  text : String
  deriving DecidableEq

/-- Render a tagged diff line with its unified-diff marker character. -/
def renderDiffLine (d : DiffLine) : String :=
  match d.tag with
  | .removed => "-" ++ d.text
  | .added => "+" ++ d.text
  | .context => " " ++ d.text

/-- A longest common subsequence of two line sequences. -/
def lcs : List String → List String → List String
  | [], _ => []
  | _, [] => []
  | x :: xs, y :: ys =>
    if x = y then x :: lcs xs ys
    else
      let l1 := lcs xs (y :: ys)
      let l2 := lcs (x :: xs) ys
      if l2.length ≤ l1.length then l1 else l2
termination_by a b => a.length + b.length

/-- LCS-based tagged line diff: lines on the common subsequence are
context, the rest are removed (from the first sequence) or added (from
the second). -/
def diffLines : List String → List String → List DiffLine
  | [], [] => []
  | [], y :: ys => ⟨.added, y⟩ :: diffLines [] ys
  | x :: xs, [] => ⟨.removed, x⟩ :: diffLines xs []
  | x :: xs, y :: ys =>
    if x = y then ⟨.context, x⟩ :: diffLines xs ys
    else if (lcs (x :: xs) ys).length ≤ (lcs xs (y :: ys)).length then
      ⟨.removed, x⟩ :: diffLines xs (y :: ys)
    else
      ⟨.added, y⟩ :: diffLines (x :: xs) ys
termination_by a b => a.length + b.length

/-- Modelled from the spec: the Line Differ (`difflib.unified_diff` in the
source is Python standard-library code, not part of this repository).  Per
the spec it computes a standard LCS-based unified diff in which only the
`+`, `-` and `@@` hunk-header lines are meaningful to consumers, and it
emits nothing at all when the two line sequences are equal (no differing
opcodes, hence no hunks and no file headers).  This model emits the two
file-header lines, one hunk header and the full tagged line list whenever
any line differs, and the empty list otherwise. -/
def unified_diff (a b : List String) : List String :=
  let d := diffLines a b
  if d.all (fun dl => dl.tag == DiffTag.context) then []
  else "--- " :: "+++ " :: "@@" :: d.map renderDiffLine

/-- Python `str.splitlines` line-boundary characters. -/
def isLineBreak (c : Char) : Bool :=
  c = '\n' || c = '\r' || c = '\x0b' || c = '\x0c' ||
  c = '\x1c' || c = '\x1d' || c = '\x1e' || c = '\u0085' ||
  c = '\u2028' || c = '\u2029'

/-- The loop of Python `str.splitlines`: `\r\n` counts as one boundary,
and no trailing empty line is produced. -/
def pySplitlinesAux : List Char → List Char → List String
  | [], [] => []
  | [], acc => [⟨acc.reverse⟩]
  | '\r' :: '\n' :: rest, acc => (⟨acc.reverse⟩ : String) :: pySplitlinesAux rest []
  | c :: rest, acc =>
    if isLineBreak c then (⟨acc.reverse⟩ : String) :: pySplitlinesAux rest []
    else pySplitlinesAux rest (c :: acc)

/-- Python `str.splitlines()`. -/
def pySplitlines (s : String) : List String := pySplitlinesAux s.data []

/-- The loop of `re.split(r'\n\s*\n', text)`: scan for the separator at
each position.  At a newline, the greedy `\s*` takes the maximal
whitespace run and backtracks until the next character is a newline, so
the separator ends at the last newline inside the run (if the run holds
none, there is no separator at this position). -/
def reSplitAux : List Char → List Char → List String
  | [], acc => [⟨acc.reverse⟩]
  | '\n' :: cs, acc =>
    let ws := cs.takeWhile isPySpace
    let tailLen := (ws.reverse.takeWhile (fun c => c != '\n')).length
    if tailLen = ws.length then reSplitAux cs ('\n' :: acc)
    else (⟨acc.reverse⟩ : String) :: reSplitAux (cs.drop (ws.length - tailLen)) []
  | c :: cs, acc => reSplitAux cs (c :: acc)
termination_by l _ => l.length
decreasing_by
  · simp
  · simp only [List.length_drop, List.length_cons]
    omega
  · simp

/-- `re.split(r'\n\s*\n', text)` from `compare_texts`. -/
def reSplitBlank (s : String) : List String := reSplitAux s.data []

/-- Head-character test (Python `line.startswith(c)` for a one-character
needle). -/
def startsWithChar (c : Char) (s : String) : Bool :=
  match s.data with
  | d :: _ => d = c
  | [] => false

/-- `format_diff_line` from the source. -/
def format_diff_line (line : String) : String :=
  if startsWithChar '+' line then
    "<span style=\"color: green; background-color: #e6ffe6;\">" ++ line ++ "</span>"
  else if startsWithChar '-' line then
    "<span style=\"color: red; background-color: #ffe6e6;\">" ++ line ++ "</span>"
  else if startsWithChar '@' line then
    "<span style=\"color: blue; font-weight: bold;\">" ++ line ++ "</span>"
  else line

/-- The CSS block `compare_texts` places at the head of its output. -/
def styleBlock : String :=
  "\n    <style>\n        .comparison-container \x7b\n            display: flex;\n" ++
  "            gap: 20px;\n            margin-bottom: 20px;\n        \x7d\n" ++
  "        .text-column \x7b\n            flex: 1;\n            padding: 10px;\n" ++
  "            border: 1px solid #ddd;\n            border-radius: 5px;\n" ++
  "            background-color: #f9f9f9;\n        \x7d\n" ++
  "        .section-title \x7b\n            font-weight: bold;\n" ++
  "            margin-bottom: 10px;\n            color: #333;\n        \x7d\n" ++
  "        .diff-line \x7b\n            margin: 2px 0;\n            padding: 2px 5px;\n" ++
  "            font-family: monospace;\n            white-space: pre-wrap;\n        \x7d\n" ++
  "    </style>\n    "

/-- The body of the per-pair loop of `compare_texts`: a section pair is
rendered only when both chunks strip to something non-empty; column one
keeps diff lines starting with `-`, column two those starting with `+`. -/
def sectionPairHtml (i : Nat) (orig amend : String) : String :=
  if pyStrip orig ≠ "" ∧ pyStrip amend ≠ "" then
    "<div class=\"comparison-container\">" ++
    "<div class=\"text-column\">" ++
    "<div class=\"section-title\">Original Text (Section " ++ toString (i + 1) ++ ")</div>" ++
    String.join
      (((unified_diff (pySplitlines orig) (pySplitlines amend)).filter
          (fun l => startsWithChar '-' l)).map
        (fun line => "<div class=\"diff-line\">" ++ format_diff_line line ++ "</div>")) ++
    "</div>" ++
    "<div class=\"text-column\">" ++
    "<div class=\"section-title\">Amendment Text (Section " ++ toString (i + 1) ++ ")</div>" ++
    String.join
      (((unified_diff (pySplitlines orig) (pySplitlines amend)).filter
          (fun l => startsWithChar '+' l)).map
        (fun line => "<div class=\"diff-line\">" ++ format_diff_line line ++ "</div>")) ++
    "</div>" ++
    "</div>"
  else ""

/-- `compare_texts` from the source: guard on empty (falsy) inputs, split
both texts into blank-line-separated chunks, and render the zipped,
enumerated pairs after the CSS block. -/
def compare_texts (original_text amendment_text : String) : String :=
  if original_text = "" ∨ amendment_text = "" then
    "One or both texts are empty"
  else
    let original_sections := reSplitBlank original_text
    let amendment_sections := reSplitBlank amendment_text
    styleBlock ++
      String.join
        (((original_sections.zip amendment_sections).enum).map
          (fun p => sectionPairHtml p.1 p.2.1 p.2.2))

/-- The section-heading pattern in the words of the specification: the
line contains, case-insensitively and anywhere in the line, the token
`SEC.` or `SECTION`, immediately followed by one or more whitespace
characters, one or more digits, and a literal period. -/
def SpecSectionHeading (line : String) : Prop :=
  ∃ a tok ws ds rest : List Char,
    line.data = a ++ tok ++ ws ++ ds ++ '.' :: rest ∧
    (tok.map Char.toLower = ['s', 'e', 'c', '.'] ∨
      tok.map Char.toLower = ['s', 'e', 'c', 't', 'i', 'o', 'n']) ∧
    ws ≠ [] ∧ (∀ c ∈ ws, isPySpace c) ∧
    ds ≠ [] ∧ (∀ c ∈ ds, Char.isDigit c)

/-! ## Theorems -/

/-- Filtering by a fixed title commutes away an outer filter that is true
on every section carrying that title. -/
theorem filter_filter_of_title (l : List Section) (p : Section → Bool) (t : String)
    (hp : ∀ s : Section, s.title = t → p s = true) :
    (l.filter p).filter (fun s => s.title == t) = l.filter (fun s => s.title == t) := by
  rw [List.filter_filter]
  refine List.filter_congr ?_
  intro s _
  by_cases h : s.title = t
  · simp [h, hp s h]
  · simp [h]

/-- Identical line sequences diff to pure context. -/
theorem diffLines_self (l : List String) :
    diffLines l l = l.map (fun x => ⟨DiffTag.context, x⟩) := by
  induction l with
  | nil => simp [diffLines]
  | cons x xs ih => simp [diffLines, ih]

/-- C1: the code appends every section present in both documents to
`modified_sections`, even when its three change lists are all empty: the
Python guard `if section_changes:` tests a dict that always holds the
`'title'` key and is therefore always truthy.  Evaluating the analyzer on
two identical one-section documents exhibits the all-empty `SectionChange`
that the specification says must be omitted. -/
theorem c1_empty_change_reported :
    analyze_changes "SEC. 1. FOO.\nbody\n" "SEC. 1. FOO.\nbody\n" =
      ⟨[], [], [⟨"SEC. 1. FOO.", [], [], []⟩]⟩ := by decide

/-- C2: classifying a document against itself is not a no-op report in the
code: `added_sections` and `removed_sections` are empty, but
`modified_sections` holds an all-empty `SectionChange` for the common
section (same root cause as C1). -/
theorem c2_self_compare_not_empty :
    (analyze_changes "SEC. 1. FOO.\n" "SEC. 1. FOO.\n").added_sections = [] ∧
    (analyze_changes "SEC. 1. FOO.\n" "SEC. 1. FOO.\n").removed_sections = [] ∧
    (analyze_changes "SEC. 1. FOO.\n" "SEC. 1. FOO.\n").modified_sections =
      [⟨"SEC. 1. FOO.", [], [], []⟩] := by decide

/-- C3, counterexample: on the spec's concrete pair the single
`SectionChange` does not carry a subsection titled `(c)` with content
`new` — subsection titles are whole stripped heading lines, so the added
subsection is titled `(c) new` with empty content. -/
theorem c3_counterexample :
    (analyze_changes "SEC. 1. FOO.\n(a) hello\n(b) world\n"
        "SEC. 1. FOO.\n(a) hello\n(c) new\n").modified_sections ≠
      [⟨"SEC. 1. FOO.", [⟨"(c)", "new"⟩], [⟨"(b)", "world"⟩], []⟩] := by decide

/-- C3, amended: each text parses to one section titled `SEC. 1. FOO.`
with two subsections, and the classifier reports one modified section
whose added subsection is titled `(c) new` (empty content), whose removed
subsection is titled `(b) world` (empty content), and whose modified list
is empty. -/
theorem c3_amended :
    extract_sections "SEC. 1. FOO.\n(a) hello\n(b) world\n" =
      [⟨"SEC. 1. FOO.", "(a) hello\n(b) world\n",
        [⟨"(a) hello", ""⟩, ⟨"(b) world", ""⟩]⟩] ∧
    extract_sections "SEC. 1. FOO.\n(a) hello\n(c) new\n" =
      [⟨"SEC. 1. FOO.", "(a) hello\n(c) new\n",
        [⟨"(a) hello", ""⟩, ⟨"(c) new", ""⟩]⟩] ∧
    analyze_changes "SEC. 1. FOO.\n(a) hello\n(b) world\n"
        "SEC. 1. FOO.\n(a) hello\n(c) new\n" =
      ⟨[], [], [⟨"SEC. 1. FOO.", [⟨"(c) new", ""⟩], [⟨"(b) world", ""⟩], []⟩]⟩ := by decide

/-- C4: for any two texts the added sections of `classify(parse A, parse B)`
carry exactly the titles of the removed sections of
`classify(parse B, parse A)`, and vice versa — both reduce to the same
filter over the same parsed list, so the title lists are equal outright. -/
theorem c4_added_removed_symmetry (A B : String) :
    ((analyze_changes A B).added_sections.map Section.title =
      (analyze_changes B A).removed_sections.map Section.title) ∧
    ((analyze_changes A B).removed_sections.map Section.title =
      (analyze_changes B A).added_sections.map Section.title) :=
  ⟨rfl, rfl⟩

/-- C7: when one side parses to zero sections the classifier degenerates
without failing: an empty original makes every amendment section added,
an empty amendment makes every original section removed, and the other
two report fields are empty (so two empty parses give an entirely empty
report). -/
theorem c7_empty_side (a b : String) :
    (extract_sections a = [] →
      analyze_changes a b = ⟨extract_sections b, [], []⟩) ∧
    (extract_sections b = [] →
      analyze_changes a b = ⟨[], extract_sections a, []⟩) := by
  constructor
  · intro h
    simp [analyze_changes, h, titleMem]
  · intro h
    simp [analyze_changes, h, titleMem, lookupTitle]

theorem c7_empty_side_witness :
    extract_sections "" = [] ∧
    analyze_changes "" "SEC. 1. A.\nbody" = ⟨extract_sections "SEC. 1. A.\nbody", [], []⟩ :=
  ⟨by decide, (c7_empty_side "" "SEC. 1. A.\nbody").1 (by decide)⟩

/-- C9: the Line Differ on identical inputs reports no lines at all (in
particular no added and no removed lines). -/
theorem c9_diff_self_empty (T : String) (_h : T ≠ "") :
    unified_diff (pySplitlines T) (pySplitlines T) = [] := by
  simp [unified_diff, diffLines_self, List.all_eq_true]

theorem c9_diff_self_empty_witness :
    ("a\nb" : String) ≠ "" ∧
    unified_diff (pySplitlines "a\nb") (pySplitlines "a\nb") = [] :=
  ⟨by decide, c9_diff_self_empty "a\nb" (by decide)⟩

/-- C10: added and removed sections are collected by iterating the parsed
section lists, not the deduplicated title maps, so a title absent from the
other side contributes one entry per occurrence: restricted to such a
title, `added_sections` (and symmetrically `removed_sections`) is exactly
the ordered list of that side's sections with the title. -/
theorem c10_duplicate_titles (a b t : String)
    (h : titleMem t (extract_sections a) = false) :
    ((analyze_changes a b).added_sections.filter (fun s => s.title == t) =
      (extract_sections b).filter (fun s => s.title == t)) ∧
    ((analyze_changes b a).removed_sections.filter (fun s => s.title == t) =
      (extract_sections b).filter (fun s => s.title == t)) := by
  have hp : ∀ s : Section, s.title = t → (!(titleMem s.title (extract_sections a))) = true := by
    intro s hs
    rw [hs, h]
    rfl
  exact ⟨filter_filter_of_title _ _ _ hp, filter_filter_of_title _ _ _ hp⟩

theorem c10_duplicate_titles_witness :
    titleMem "SEC. 1. X." (extract_sections "no headings here") = false ∧
    ((analyze_changes "no headings here"
        "SEC. 1. X.\na\nSEC. 1. X.\nb\n").added_sections.filter
          (fun s => s.title == "SEC. 1. X.") =
      (extract_sections "SEC. 1. X.\na\nSEC. 1. X.\nb\n").filter
        (fun s => s.title == "SEC. 1. X.")) ∧
    (analyze_changes "no headings here"
        "SEC. 1. X.\na\nSEC. 1. X.\nb\n").added_sections.length = 2 :=
  ⟨by decide,
   (c10_duplicate_titles "no headings here" "SEC. 1. X.\na\nSEC. 1. X.\nb\n"
      "SEC. 1. X." (by decide)).1,
   by decide⟩

/-- C6, counterexample: a whitespace-only (non-empty) first argument does
not produce the "not comparable" result value — the guard in
`compare_texts` only fires on empty (falsy) strings, and the whitespace
chunk is silently skipped by the rendering loop instead. -/
theorem c6_counterexample :
    compare_texts " " "x" ≠ "One or both texts are empty" := by decide

/-- C6, amended: `compare_texts` returns the distinguishable
"not comparable" result value exactly on empty string arguments. -/
theorem c6_empty_guard (a b : String) (h : a = "" ∨ b = "") :
    compare_texts a b = "One or both texts are empty" := by
  unfold compare_texts
  rw [if_pos h]

theorem c6_empty_guard_witness :
    (("" : String) = "" ∨ ("x" : String) = "") ∧
    compare_texts "" "x" = "One or both texts are empty" :=
  ⟨Or.inl rfl, c6_empty_guard "" "x" (Or.inl rfl)⟩

/-- Characterization of `re.search`: the anchored matcher succeeds at some
start position iff it succeeds on some suffix. -/
theorem searchAny_iff (f : List Char → Bool) (l : List Char) :
    searchAny f l = true ↔ ∃ a t : List Char, l = a ++ t ∧ f t = true := by
  induction l with
  | nil =>
    constructor
    · intro h
      exact ⟨[], [], rfl, h⟩
    · rintro ⟨a, t, hl, hf⟩
      rcases List.append_eq_nil.mp hl.symm with ⟨ha, ht⟩
      subst ha; subst ht
      exact hf
  | cons c cs ih =>
    constructor
    · intro h
      rcases Bool.or_eq_true_iff.mp (by simpa [searchAny] using h) with h1 | h2
      · exact ⟨[], c :: cs, rfl, h1⟩
      · rcases ih.mp h2 with ⟨a, t, hl, hf⟩
        exact ⟨c :: a, t, by rw [hl]; rfl, hf⟩
    · rintro ⟨a, t, hl, hf⟩
      show searchAny f (c :: cs) = true
      cases a with
      | nil =>
        simp only [List.nil_append] at hl
        subst hl
        simp [searchAny, hf]
      | cons a0 as =>
        simp only [List.cons_append, List.cons.injEq] at hl
        have h2 : searchAny f cs = true := ih.mpr ⟨as, t, hl.2, hf⟩
        simp [searchAny, h2]

/-- Characterization of the case-insensitive literal matcher. -/
theorem matchCI_some_iff (pat : List Char) : ∀ l rest : List Char,
    matchCI pat l = some rest ↔
      ∃ tok : List Char, l = tok ++ rest ∧ tok.map Char.toLower = pat := by
  induction pat with
  | nil =>
    intro l rest
    constructor
    · intro h
      simp only [matchCI, Option.some.injEq] at h
      exact ⟨[], by simp [h], rfl⟩
    · rintro ⟨tok, hl, hm⟩
      have ht : tok = [] := List.map_eq_nil_iff.mp hm
      subst ht
      simp only [List.nil_append] at hl
      subst hl
      rfl
  | cons p ps ih =>
    intro l rest
    constructor
    · intro h
      cases l with
      | nil => simp [matchCI] at h
      | cons c cs =>
        rw [matchCI] at h
        by_cases hc : c.toLower = p
        · rw [if_pos hc] at h
          rcases (ih cs rest).mp h with ⟨tok, hcs, hm⟩
          exact ⟨c :: tok, by rw [hcs]; rfl, by simp [hm, hc]⟩
        · rw [if_neg hc] at h
          exact absurd h (by simp)
    · rintro ⟨tok, hl, hm⟩
      cases tok with
      | nil => simp at hm
      | cons c0 ts =>
        simp only [List.map_cons, List.cons.injEq] at hm
        subst hl
        show matchCI (p :: ps) (c0 :: (ts ++ rest)) = some rest
        rw [matchCI, if_pos hm.1]
        exact (ih (ts ++ rest) rest).mpr ⟨ts, rfl, hm.2⟩

/-- Dropping a predicate-true block stops exactly at the first failing
element. -/
theorem dropWhile_all_append (p : Char → Bool) (xs : List Char) (y : Char) (zs : List Char)
    (hxs : ∀ c ∈ xs, p c = true) (hy : p y = false) :
    (xs ++ y :: zs).dropWhile p = y :: zs := by
  induction xs with
  | nil => simp [List.dropWhile_cons, hy]
  | cons x xs ih =>
    have hx : p x = true := hxs x (by simp)
    simp only [List.cons_append, List.dropWhile_cons, hx, if_true]
    exact ih (fun c hc => hxs c (by simp [hc]))

/-- The six ASCII whitespace characters are not digits. -/
theorem pySpace_not_digit (c : Char) (h : isPySpace c = true) : c.isDigit = false := by
  simp only [isPySpace, Bool.or_eq_true, decide_eq_true_eq] at h
  rcases h with ((((rfl | rfl) | rfl) | rfl) | rfl) | rfl <;> decide

/-- Digits are not whitespace. -/
theorem digit_not_pySpace (c : Char) (h : c.isDigit = true) : isPySpace c = false := by
  cases hs : isPySpace c
  · rfl
  · rw [pySpace_not_digit c hs] at h
    exact absurd h (by simp)

/-- Characterization of the greedy `\s+\d+\.` matcher: it succeeds exactly
when the list starts with a nonempty whitespace run, then a nonempty digit
run, then a period. -/
theorem skipTail_iff (l : List Char) :
    skipTail l = true ↔
      ∃ ws ds rest : List Char,
        l = ws ++ ds ++ '.' :: rest ∧
        ws ≠ [] ∧ (∀ c ∈ ws, isPySpace c = true) ∧
        ds ≠ [] ∧ (∀ c ∈ ds, Char.isDigit c = true) := by
  constructor
  · intro h
    cases l with
    | nil => simp [skipTail] at h
    | cons c cs =>
      simp only [skipTail] at h
      rcases Bool.and_eq_true_iff.mp h with ⟨hc, hrest⟩
      rcases hd : cs.dropWhile isPySpace with _ | ⟨d, ds⟩
      · rw [hd] at hrest; simp at hrest
      · rw [hd] at hrest
        rcases Bool.and_eq_true_iff.mp hrest with ⟨hdig, hrest2⟩
        rcases hd2 : ds.dropWhile Char.isDigit with _ | ⟨e, r⟩
        · rw [hd2] at hrest2; simp at hrest2
        · rw [hd2] at hrest2
          have he : e = '.' := by simpa using hrest2
          subst he
          have h1 : cs.takeWhile isPySpace ++ (d :: ds) = cs := by
            rw [← hd]; exact List.takeWhile_append_dropWhile ..
          have h2 : ds.takeWhile Char.isDigit ++ '.' :: r = ds := by
            rw [← hd2]; exact List.takeWhile_append_dropWhile ..
          have hcs : cs = cs.takeWhile isPySpace ++ d :: (ds.takeWhile Char.isDigit ++ '.' :: r) := by
            rw [h2, h1]
          refine ⟨c :: cs.takeWhile isPySpace, d :: ds.takeWhile Char.isDigit, r,
            ?_, by simp, ?_, by simp, ?_⟩
          · conv_lhs => rw [hcs]
            simp [List.append_assoc]
          · intro x hx
            rcases List.mem_cons.mp hx with rfl | hx2
            · exact hc
            · exact List.mem_takeWhile_imp hx2
          · intro x hx
            rcases List.mem_cons.mp hx with rfl | hx2
            · exact hdig
            · exact List.mem_takeWhile_imp hx2
  · rintro ⟨ws, ds, rest, hl, hws, hwsp, hds, hdsp⟩
    cases ws with
    | nil => exact absurd rfl hws
    | cons w0 ws' =>
      cases ds with
      | nil => exact absurd rfl hds
      | cons d0 ds' =>
        subst hl
        have hw0 : isPySpace w0 = true := hwsp w0 (by simp)
        have hd0 : Char.isDigit d0 = true := hdsp d0 (by simp)
        have hdrop1 : (ws' ++ d0 :: (ds' ++ '.' :: rest)).dropWhile isPySpace
            = d0 :: (ds' ++ '.' :: rest) :=
          dropWhile_all_append _ _ _ _
            (fun c hc => hwsp c (by simp [hc])) (digit_not_pySpace d0 hd0)
        have hdrop2 : (ds' ++ '.' :: rest).dropWhile Char.isDigit = '.' :: rest :=
          dropWhile_all_append _ _ _ _
            (fun c hc => hdsp c (by simp [hc])) (by decide)
        have hgoal : (w0 :: ws') ++ (d0 :: ds') ++ '.' :: rest
            = w0 :: (ws' ++ d0 :: (ds' ++ '.' :: rest)) := by
          simp [List.append_assoc]
        rw [hgoal]
        simp only [skipTail, hw0, Bool.true_and]
        rw [hdrop1]
        simp [hd0, hdrop2]

/-- Characterization of the anchored `(?:SEC\.|SECTION)\s+\d+\.` matcher. -/
theorem secFrom_iff (l : List Char) :
    secFrom l = true ↔
      ∃ tok ws ds rest : List Char,
        l = tok ++ (ws ++ ds ++ '.' :: rest) ∧
        (tok.map Char.toLower = ['s', 'e', 'c', '.'] ∨
          tok.map Char.toLower = ['s', 'e', 'c', 't', 'i', 'o', 'n']) ∧
        ws ≠ [] ∧ (∀ c ∈ ws, isPySpace c = true) ∧
        ds ≠ [] ∧ (∀ c ∈ ds, Char.isDigit c = true) := by
  constructor
  · intro h
    rcases Bool.or_eq_true_iff.mp (by simpa [secFrom] using h) with h1 | h1
    · rcases hm : matchCI ['s', 'e', 'c', '.'] l with _ | r
      · rw [hm] at h1; simp at h1
      · rw [hm] at h1
        rcases (matchCI_some_iff _ l r).mp hm with ⟨tok, hl, htok⟩
        rcases (skipTail_iff r).mp h1 with ⟨ws, ds, rest, hr, hws, hwsp, hds, hdsp⟩
        exact ⟨tok, ws, ds, rest, by rw [hl, hr], Or.inl htok, hws, hwsp, hds, hdsp⟩
    · rcases hm : matchCI ['s', 'e', 'c', 't', 'i', 'o', 'n'] l with _ | r
      · rw [hm] at h1; simp at h1
      · rw [hm] at h1
        rcases (matchCI_some_iff _ l r).mp hm with ⟨tok, hl, htok⟩
        rcases (skipTail_iff r).mp h1 with ⟨ws, ds, rest, hr, hws, hwsp, hds, hdsp⟩
        exact ⟨tok, ws, ds, rest, by rw [hl, hr], Or.inr htok, hws, hwsp, hds, hdsp⟩
  · rintro ⟨tok, ws, ds, rest, hl, htok, hws, hwsp, hds, hdsp⟩
    have hsk : skipTail (ws ++ ds ++ '.' :: rest) = true :=
      (skipTail_iff _).mpr ⟨ws, ds, rest, rfl, hws, hwsp, hds, hdsp⟩
    rcases htok with ht | ht
    · have hm : matchCI ['s', 'e', 'c', '.'] l = some (ws ++ ds ++ '.' :: rest) :=
        (matchCI_some_iff _ l _).mpr ⟨tok, hl, ht⟩
      unfold secFrom
      apply Bool.or_eq_true_iff.mpr
      left
      rw [hm]
      exact hsk
    · have hm : matchCI ['s', 'e', 'c', 't', 'i', 'o', 'n'] l = some (ws ++ ds ++ '.' :: rest) :=
        (matchCI_some_iff _ l _).mpr ⟨tok, hl, ht⟩
      unfold secFrom
      apply Bool.or_eq_true_iff.mpr
      right
      rw [hm]
      exact hsk

/-- The embedded `section_pattern.search` agrees with the heading pattern
as the specification words it. -/
theorem sectionMatch_iff_spec (line : String) :
    sectionMatch line = true ↔ SpecSectionHeading line := by
  unfold sectionMatch SpecSectionHeading
  rw [searchAny_iff]
  constructor
  · rintro ⟨a, t, hl, hf⟩
    rcases (secFrom_iff t).mp hf with ⟨tok, ws, ds, rest, ht, htok, hws, hwsp, hds, hdsp⟩
    exact ⟨a, tok, ws, ds, rest, by rw [hl, ht]; simp [List.append_assoc],
      htok, hws, hwsp, hds, hdsp⟩
  · rintro ⟨a, tok, ws, ds, rest, hl, htok, hws, hwsp, hds, hdsp⟩
    refine ⟨a, tok ++ (ws ++ ds ++ '.' :: rest), ?_, ?_⟩
    · rw [hl]; simp [List.append_assoc]
    · exact (secFrom_iff _).mpr ⟨tok, ws, ds, rest, rfl, htok, hws, hwsp, hds, hdsp⟩

/-- C5: a line starts a new section iff it contains, case-insensitively
and anywhere, `SEC.` or `SECTION` followed by whitespace, one or more
digits and a period; and on a match the open section (if any) is closed
with its accumulated content while the trimmed matching line becomes the
new title over an empty buffer. -/
theorem c5_heading_iff_and_step (line : String) (rest : List String)
    (cur : Option String) (content : List String) :
    (sectionMatch line = true ↔ SpecSectionHeading line) ∧
    extract_sections_aux (line :: rest) cur content =
      (if sectionMatch line then
        (match cur with
         | none => extract_sections_aux rest (some (pyStrip line)) []
         | some t =>
           closeSection t content :: extract_sections_aux rest (some (pyStrip line)) [])
       else extract_sections_aux rest cur (line :: content)) :=
  ⟨sectionMatch_iff_spec line, rfl⟩

/-- `splitNl` never returns the empty list. -/
theorem splitNl_ne_nil (l : List Char) : splitNl l ≠ [] := by
  cases l with
  | nil => simp [splitNl]
  | cons c rest =>
    simp only [splitNl]
    by_cases h : c = '\n'
    · simp [h]
    · simp only [if_neg h]
      rcases hs : splitNl rest with _ | ⟨p, m⟩
      · simp
      · simp

/-- A newline-free piece splits to itself. -/
theorem splitNl_no_nl (x : List Char) (hx : ¬ '\n' ∈ x) : splitNl x = [x] := by
  induction x with
  | nil => rfl
  | cons c cs ih =>
    have hc : ¬ c = '\n' := fun h => hx (by simp [h])
    have hcs : ¬ '\n' ∈ cs := fun h => hx (by simp [h])
    simp only [splitNl, if_neg hc, ih hcs]

/-- Splitting after a newline-free piece peels it off. -/
theorem splitNl_append_nl (x t : List Char) (hx : ¬ '\n' ∈ x) :
    splitNl (x ++ '\n' :: t) = x :: splitNl t := by
  induction x with
  | nil => simp [splitNl]
  | cons c cs ih =>
    have hc : ¬ c = '\n' := fun h => hx (by simp [h])
    have hcs : ¬ '\n' ∈ cs := fun h => hx (by simp [h])
    show splitNl ((c :: cs) ++ '\n' :: t) = (c :: cs) :: splitNl t
    rw [List.cons_append]
    simp only [splitNl, if_neg hc]
    rw [ih hcs]

/-- Split undoes join on a nonempty list of newline-free pieces. -/
theorem splitNl_joinNlL (ls : List (List Char)) (hne : ls ≠ [])
    (hfree : ∀ x ∈ ls, ¬ '\n' ∈ x) :
    splitNl (joinNlL ls) = ls := by
  induction ls with
  | nil => exact absurd rfl hne
  | cons x xs ih =>
    cases xs with
    | nil => exact splitNl_no_nl x (hfree x (by simp))
    | cons y ys =>
      have hx : ¬ '\n' ∈ x := hfree x (by simp)
      rw [joinNlL, splitNl_append_nl x _ hx,
        ih (by simp) (fun z hz => hfree z (by simp [hz]))]

/-- String-level split/join roundtrip. -/
theorem pySplitNl_joinNl (ls : List String) (hne : ls ≠ [])
    (hfree : ∀ x ∈ ls, ¬ '\n' ∈ x.data) :
    pySplitNl (joinNl ls) = ls := by
  unfold pySplitNl joinNl
  rw [show (⟨joinNlL (ls.map String.data)⟩ : String).data
      = joinNlL (ls.map String.data) from rfl]
  rw [splitNl_joinNlL (ls.map String.data) (by simpa using hne) ?hf]
  case hf =>
    intro x hx
    rcases List.mem_map.mp hx with ⟨s, hs, rfl⟩
    exact hfree s hs
  rw [List.map_map]
  exact List.map_id ls

/-- Every piece of `splitNl` is newline-free. -/
theorem mem_splitNl_no_nl (l : List Char) : ∀ x ∈ splitNl l, ¬ '\n' ∈ x := by
  induction l with
  | nil =>
    intro x hx
    simp only [splitNl, List.mem_singleton] at hx
    subst hx
    simp
  | cons c cs ih =>
    intro x hx
    by_cases h : c = '\n'
    · simp only [splitNl, if_pos h] at hx
      rcases List.mem_cons.mp hx with rfl | hx2
      · simp
      · exact ih x hx2
    · simp only [splitNl, if_neg h] at hx
      rcases hs : splitNl cs with _ | ⟨p, m⟩
      · exact absurd hs (splitNl_ne_nil cs)
      · rw [hs] at hx
        rcases List.mem_cons.mp hx with rfl | hx2
        · intro hmem
          rcases List.mem_cons.mp hmem with heq | hmem2
          · exact h heq.symm
          · exact ih p (by rw [hs]; simp) hmem2
        · exact ih x (by rw [hs]; simp [hx2])

/-- Every line of `pySplitNl` is newline-free. -/
theorem mem_pySplitNl_no_nl (s : String) : ∀ x ∈ pySplitNl s, ¬ '\n' ∈ x.data := by
  intro x hx
  unfold pySplitNl at hx
  rcases List.mem_map.mp hx with ⟨l, hl, rfl⟩
  exact mem_splitNl_no_nl _ l hl

/-- `dropWhile` distributes over an append whose right part starts with a
failing element. -/
theorem dropWhile_append_cons (p : Char → Bool) (a : List Char) (y : Char) (ys : List Char)
    (hy : p y = false) :
    (a ++ y :: ys).dropWhile p = a.dropWhile p ++ y :: ys := by
  induction a with
  | nil => simp [List.dropWhile_cons, hy]
  | cons x a ih =>
    by_cases hx : p x
    · simp [List.dropWhile_cons, hx, ih]
    · simp [List.dropWhile_cons, hx]

/-- Stripping surrounding whitespace preserves any infix whose first and
last characters are not whitespace. -/
theorem stripL_infix (a m r : List Char) (c0 : Char) (m' : List Char)
    (hm : m = c0 :: m') (hc0 : isPySpace c0 = false)
    (ce : Char) (me : List Char) (hme : m.reverse = ce :: me) (hce : isPySpace ce = false) :
    ∃ a' r' : List Char, stripL (a ++ m ++ r) = a' ++ m ++ r' := by
  unfold stripL
  have h1 : (a ++ m ++ r).dropWhile isPySpace = a.dropWhile isPySpace ++ m ++ r := by
    rw [hm]
    have hassoc : a ++ (c0 :: m') ++ r = a ++ c0 :: (m' ++ r) := by simp
    rw [hassoc, dropWhile_append_cons _ _ _ _ hc0]
    simp
  rw [h1]
  have h2 : (a.dropWhile isPySpace ++ m ++ r).reverse
      = r.reverse ++ ce :: (me ++ (a.dropWhile isPySpace).reverse) := by
    simp [List.reverse_append, hme, List.append_assoc]
  rw [h2, dropWhile_append_cons _ _ _ _ hce]
  have hm2 : m = me.reverse ++ [ce] := by
    have := congrArg List.reverse hme
    simpa using this
  refine ⟨a.dropWhile isPySpace, (r.reverse.dropWhile isPySpace).reverse, ?_⟩
  rw [hm2]
  simp [List.reverse_append, List.append_assoc]

/-- Whitespace characters do not lowercase to `'s'`. -/
theorem pySpace_toLower_ne_s (c : Char) (h : isPySpace c = true) : ¬ c.toLower = 's' := by
  simp only [isPySpace, Bool.or_eq_true, decide_eq_true_eq] at h
  rcases h with ((((rfl | rfl) | rfl) | rfl) | rfl) | rfl <;> decide

/-- Stripping surrounding whitespace from a line preserves a section
heading match: the matched region starts with a letter and ends with a
period, so it survives the strip intact. -/
theorem sectionMatch_pyStrip (l : String) (h : sectionMatch l = true) :
    sectionMatch (pyStrip l) = true := by
  unfold sectionMatch at h ⊢
  rcases (searchAny_iff _ _).mp h with ⟨a, t, hl, hf⟩
  rcases (secFrom_iff t).mp hf with ⟨tok, ws, ds, rest, ht, htok, hws, hwsp, hds, hdsp⟩
  obtain ⟨c0, tok', rfl⟩ : ∃ c0 tok', tok = c0 :: tok' := by
    cases tok with
    | nil => rcases htok with ht2 | ht2 <;> simp at ht2
    | cons c0 ts => exact ⟨c0, ts, rfl⟩
  have hc0l : c0.toLower = 's' := by
    rcases htok with ht2 | ht2 <;>
      · simp only [List.map_cons, List.cons.injEq] at ht2
        exact ht2.1
  have hc0 : isPySpace c0 = false := by
    cases hs : isPySpace c0
    · rfl
    · exact absurd hc0l (pySpace_toLower_ne_s c0 hs)
  have hldata : l.data = a ++ ((c0 :: tok') ++ ws ++ ds ++ ['.']) ++ rest := by
    rw [hl, ht]
    simp [List.append_assoc]
  have hmrev : ((c0 :: tok') ++ ws ++ ds ++ ['.']).reverse
      = '.' :: (ds.reverse ++ (ws.reverse ++ (c0 :: tok').reverse)) := by
    simp [List.reverse_append, List.append_assoc]
  have hstrip := stripL_infix a ((c0 :: tok') ++ ws ++ ds ++ ['.']) rest c0
    (tok' ++ ws ++ ds ++ ['.']) (by simp [List.append_assoc]) hc0
    '.' (ds.reverse ++ (ws.reverse ++ (c0 :: tok').reverse)) hmrev (by decide)
  rcases hstrip with ⟨a', r', hstrip⟩
  have hpd : (pyStrip l).data = stripL l.data := rfl
  rw [hpd, hldata, hstrip]
  refine (searchAny_iff _ _).mpr
    ⟨a', ((c0 :: tok') ++ ws ++ ds ++ ['.']) ++ r', by simp [List.append_assoc], ?_⟩
  refine (secFrom_iff _).mpr ⟨c0 :: tok', ws, ds, r', ?_, htok, hws, hwsp, hds, hdsp⟩
  simp [List.append_assoc]

/-- With no open section the accumulated buffer is irrelevant. -/
theorem extract_aux_none_content (lines : List String) :
    ∀ content content' : List String,
      extract_sections_aux lines none content = extract_sections_aux lines none content' := by
  induction lines with
  | nil => intro _ _; rfl
  | cons line rest ih =>
    intro content content'
    by_cases h : sectionMatch line = true
    · simp [extract_sections_aux, h]
    · simp [extract_sections_aux, h, ih (line :: content) (line :: content')]

/-- Leading non-matching lines are dropped: they do not affect the parse
at all. -/
theorem extract_aux_skip : ∀ pre : List String,
    (∀ l ∈ pre, sectionMatch l = false) →
    ∀ rest content : List String,
      extract_sections_aux (pre ++ rest) none content
        = extract_sections_aux rest none content := by
  intro pre
  induction pre with
  | nil => intro _ rest content; rfl
  | cons p ps ih =>
    intro hpre rest content
    have hp : sectionMatch p = false := hpre p (by simp)
    show extract_sections_aux (p :: (ps ++ rest)) none content = _
    simp only [extract_sections_aux, hp, Bool.false_eq_true, if_false]
    rw [extract_aux_none_content (ps ++ rest) (p :: content) content]
    exact ih (fun l hl => hpre l (by simp [hl])) rest content

/-- Shape of the parser loop's output: every produced title is either the
open title or the strip of a matching input line, and every line of every
produced content string is empty, from the initial buffer, or one of the
non-matching input lines. -/
theorem extract_aux_shape : ∀ (lines : List String) (cur : Option String) (content : List String),
    (∀ l ∈ lines, ¬ '\n' ∈ l.data) →
    (∀ l ∈ content, ¬ '\n' ∈ l.data) →
    ∀ s ∈ extract_sections_aux lines cur content,
      ((∃ t, cur = some t ∧ s.title = t) ∨
        (∃ l, l ∈ lines ∧ sectionMatch l = true ∧ s.title = pyStrip l)) ∧
      (∀ cl ∈ pySplitNl s.content,
        cl = "" ∨ cl ∈ content ∨ (cl ∈ lines ∧ sectionMatch cl = false)) := by
  intro lines
  induction lines with
  | nil =>
    intro cur content _ hcontent s hs
    cases cur with
    | none => simp [extract_sections_aux] at hs
    | some t =>
      simp only [extract_sections_aux, List.mem_singleton] at hs
      subst hs
      refine ⟨Or.inl ⟨t, rfl, rfl⟩, ?_⟩
      intro cl hcl
      rcases hcr : content.reverse with _ | ⟨x, xs⟩
      · have he : (closeSection t content).content = "" := by
          unfold closeSection
          rw [hcr]
          rfl
        rw [he] at hcl
        left
        have h0 : pySplitNl "" = [""] := rfl
        rw [h0] at hcl
        simpa using hcl
      · have hrt : pySplitNl (joinNl content.reverse) = content.reverse := by
          apply pySplitNl_joinNl
          · rw [hcr]; simp
          · intro x2 hx2
            exact hcontent x2 (by simpa using hx2)
        have hcc : (closeSection t content).content = joinNl content.reverse := rfl
        rw [hcc, hrt] at hcl
        right; left
        simpa using hcl
  | cons line rest ih =>
    intro cur content hlines hcontent s hs
    have hlines' : ∀ l ∈ rest, ¬ '\n' ∈ l.data := fun l hl => hlines l (by simp [hl])
    by_cases hm : sectionMatch line = true
    · cases cur with
      | none =>
        simp only [extract_sections_aux, hm, if_true] at hs
        have hrec := ih (some (pyStrip line)) [] hlines' (by simp) s hs
        constructor
        · rcases hrec.1 with ⟨t, ht, hst⟩ | ⟨l, hl, hlm, hst⟩
          · have ht2 : t = pyStrip line := by
              injection ht with h2
              exact h2.symm
            exact Or.inr ⟨line, by simp, hm, by rw [hst, ht2]⟩
          · exact Or.inr ⟨l, by simp [hl], hlm, hst⟩
        · intro cl hcl
          rcases hrec.2 cl hcl with h0 | hc | ⟨hmem, hnm⟩
          · exact Or.inl h0
          · simp at hc
          · exact Or.inr (Or.inr ⟨by simp [hmem], hnm⟩)
      | some t0 =>
        simp only [extract_sections_aux, hm, if_true] at hs
        rcases List.mem_cons.mp hs with rfl | hs2
        · refine ⟨Or.inl ⟨t0, rfl, rfl⟩, ?_⟩
          intro cl hcl
          rcases hcr : content.reverse with _ | ⟨x, rest2⟩
          · have he : (closeSection t0 content).content = "" := by
              unfold closeSection
              rw [hcr]
              rfl
            rw [he] at hcl
            left
            have h0 : pySplitNl "" = [""] := rfl
            rw [h0] at hcl
            simpa using hcl
          · have hrt : pySplitNl (joinNl content.reverse) = content.reverse := by
              apply pySplitNl_joinNl
              · rw [hcr]; simp
              · intro x2 hx2
                exact hcontent x2 (by simpa using hx2)
            have hcc : (closeSection t0 content).content = joinNl content.reverse := rfl
            rw [hcc, hrt] at hcl
            right; left
            simpa using hcl
        · have hrec := ih (some (pyStrip line)) [] hlines' (by simp) s hs2
          constructor
          · rcases hrec.1 with ⟨t, ht, hst⟩ | ⟨l, hl, hlm, hst⟩
            · have ht2 : t = pyStrip line := by
                injection ht with h2
                exact h2.symm
              exact Or.inr ⟨line, by simp, hm, by rw [hst, ht2]⟩
            · exact Or.inr ⟨l, by simp [hl], hlm, hst⟩
          · intro cl hcl
            rcases hrec.2 cl hcl with h0 | hc | ⟨hmem, hnm⟩
            · exact Or.inl h0
            · simp at hc
            · exact Or.inr (Or.inr ⟨by simp [hmem], hnm⟩)
    · have heq : extract_sections_aux (line :: rest) cur content
          = extract_sections_aux rest cur (line :: content) := by
        simp [extract_sections_aux, hm]
      rw [heq] at hs
      have hrec := ih cur (line :: content) hlines'
        (fun l hl => by
          rcases List.mem_cons.mp hl with rfl | hl2
          · exact hlines l (by simp)
          · exact hcontent l hl2) s hs
      constructor
      · rcases hrec.1 with h1 | ⟨l, hl, hlm, hst⟩
        · exact Or.inl h1
        · exact Or.inr ⟨l, by simp [hl], hlm, hst⟩
      · intro cl hcl
        rcases hrec.2 cl hcl with h0 | hc | ⟨hmem, hnm⟩
        · exact Or.inl h0
        · rcases List.mem_cons.mp hc with rfl | hc2
          · have hnm2 : sectionMatch cl = false := by
              revert hm
              cases sectionMatch cl <;> simp
            exact Or.inr (Or.inr ⟨by simp, hnm2⟩)
          · exact Or.inr (Or.inl hc2)
        · exact Or.inr (Or.inr ⟨by simp [hmem], hnm⟩)

/-- C8: lines before the first section heading are discarded — the parse
equals the parse of the remaining lines, and a distinctive pre-heading
line (one that is not the empty string and does not also occur after the
cut) is neither the title nor among the content lines of any parsed
section. -/
theorem c8_leading_lines_dropped (text : String) (pre rest : List String) (p : String)
    (hsplit : pySplitNl text = pre ++ rest)
    (hpre : ∀ l ∈ pre, sectionMatch l = false) :
    extract_sections text = extract_sections_aux rest none [] ∧
    (p ∈ pre → p ∉ rest → p ≠ "" →
      ∀ s ∈ extract_sections text, s.title ≠ p ∧ p ∉ pySplitNl s.content) := by
  have hskip : extract_sections text = extract_sections_aux rest none [] := by
    unfold extract_sections
    rw [hsplit]
    exact extract_aux_skip pre hpre rest []
  refine ⟨hskip, ?_⟩
  intro hp hpnr hpne s hs
  rw [hskip] at hs
  have hfree : ∀ l ∈ rest, ¬ '\n' ∈ l.data := by
    intro l hl
    exact mem_pySplitNl_no_nl text l (by rw [hsplit]; exact List.mem_append_right pre hl)
  have hshape := extract_aux_shape rest none [] hfree (by simp) s hs
  constructor
  · rcases hshape.1 with ⟨t, ht, _⟩ | ⟨l, hl, hlm, hst⟩
    · exact absurd ht (by simp)
    · intro hteq
      have h1 : sectionMatch (pyStrip l) = true := sectionMatch_pyStrip l hlm
      rw [hst] at hteq
      rw [hteq] at h1
      rw [hpre p hp] at h1
      exact absurd h1 (by simp)
  · intro hmem
    rcases hshape.2 p hmem with h0 | hc | ⟨hr, _⟩
    · exact hpne h0
    · simp at hc
    · exact hpnr hr

theorem c8_leading_lines_dropped_witness :
    (pySplitNl "prologue note\nSEC. 1. A.\nbody text"
        = ["prologue note"] ++ ["SEC. 1. A.", "body text"]) ∧
    (∀ l ∈ ["prologue note"], sectionMatch l = false) ∧
    (extract_sections "prologue note\nSEC. 1. A.\nbody text"
        = extract_sections_aux ["SEC. 1. A.", "body text"] none [] ∧
      (("prologue note" : String) ∈ ["prologue note"] →
        ("prologue note" : String) ∉ ["SEC. 1. A.", "body text"] →
        ("prologue note" : String) ≠ "" →
        ∀ s ∈ extract_sections "prologue note\nSEC. 1. A.\nbody text",
          s.title ≠ "prologue note" ∧ "prologue note" ∉ pySplitNl s.content)) :=
  ⟨by decide, by decide,
   c8_leading_lines_dropped "prologue note\nSEC. 1. A.\nbody text"
     ["prologue note"] ["SEC. 1. A.", "body text"] "prologue note"
     (by decide) (by decide)⟩
